import Mathlib

/-!
Shallow embedding of the findx ingestion pipeline (catalog schema, event bus,
scanner filter, path relativization, page splitting, chunking, chunk identity,
mirror builder recovery, and rank fusion), with theorems checking the
natural-language specification against the code.
-/

namespace Findx

/-! ## Catalog schema (src/db/mod.rs, `open`)

`db::open` runs one `execute_batch` of `CREATE TABLE IF NOT EXISTS`
statements.  Each table is transcribed below as its name, its column names in
order, and the column sets carrying a uniqueness constraint (primary keys and
`UNIQUE` columns). -/

structure TableDef where
  name : String
  columns : List String
  uniqueSets : List (List String)
deriving DecidableEq, Repr

/-- The schema created by `db::open` in src/db/mod.rs, transcribed table by
table from the SQL batch. -/
def openSchema : List TableDef :=
  [ { name := "files"
    , columns := ["id", "realpath", "size", "mtime_ns", "inode_hint", "mime",
                  "hash", "status", "created_ts", "updated_ts"]
    , uniqueSets := [["id"], ["realpath"]] }
  , { name := "ops_log"
    , columns := ["ts", "kind", "path_from", "path_to", "file_id"]
    , uniqueSets := [] }
  , { name := "documents"
    , columns := ["file_id", "extractor", "extractor_version", "lang",
                  "page_count", "content_md", "content_txt", "ocr_applied",
                  "updated_ts"]
    , uniqueSets := [["file_id"]] }
  , { name := "chunks"
    , columns := ["file_id", "chunk_id", "start_byte", "end_byte", "page_from",
                  "page_to", "section_path", "token_count", "text"]
    , uniqueSets := [["chunk_id"]] }
  , { name := "embeddings"
    , columns := ["chunk_id", "model_id", "dim", "vec"]
    , uniqueSets := [["chunk_id", "model_id"]] }
  , { name := "events"
    , columns := ["id", "ts", "topic", "type", "idempotency_key", "payload"]
    , uniqueSets := [["id"]] } ]

/-- Table targeted by the extraction worker's insert-if-absent statement in
src/extract/mod.rs (`worker_loop`): `INSERT INTO extract_jobs ... ON
CONFLICT(file_uid, content_hash) DO NOTHING`. -/
def workerJobInsertTable : String := "extract_jobs"

/-- Conflict target named by the worker's `ON CONFLICT` clause. -/
def workerJobConflictCols : List String := ["file_uid", "content_hash"]

/-- Tables written by the mirror builder in src/mirror/mod.rs
(`handle_extraction` / `write_chunks_impl`). -/
def mirrorInsertTables : List String := ["mirror_docs", "mirror_chunks"]

/-! ## Path relativization (src/mirror/mod.rs and src/reconcile.rs, `relativize`)

Paths are modelled as lists of components; `camino`'s `starts_with` /
`strip_prefix` are component-wise, which is `List.isPrefixOf` / `List.drop`
here.  The source iterates the configured roots in order and strips the first
root that is a prefix of the path. -/

def relativize (path : List String) : List (List String) → List String
  | [] => path
  | root :: rest =>
    if root.isPrefixOf path then path.drop root.length
    else relativize path rest

/-- Spec-side definition for comparison (refinement target, written from the
spec claim only): strip the longest configured root that is a prefix of the
path. -/
def relativizeLongest (path : List String) (roots : List (List String)) : List String :=
  match (roots.filter (fun r => r.isPrefixOf path)).foldl
      (fun best r =>
        match best with
        | none => some r
        | some b => if b.length < r.length then some r else some b)
      none with
  | none => path
  | some r => path.drop r.length

/-! ## Cold-scan keep decision (src/fs/mod.rs, `cold_scan`)

For each directory entry the scan keeps the file iff: it is a regular file,
it passes the hidden-file policy (file name not starting with a dot unless
`include_hidden`), it does not lie under the mirror root, it matches the
include glob set, and it does not match the exclude glob set.  Glob sets are
abstracted as predicates on the path.  The entry's size is part of the model
so the theorems can speak about `max_file_size_mb`. -/

structure ScanEntry where
  pathComponents : List String
  fileName : List Char
  isFile : Bool
  size : Nat
deriving Repr

/-- Rust's `str::starts_with('.')` on the file name: true iff the first
character is a dot. -/
def startsWithDot : List Char → Bool
  | '.' :: _ => true
  | _ => false

structure ScanPolicy where
  includeHidden : Bool
  mirrorRoot : List String
  includeMatch : List String → Bool
  excludeMatch : List String → Bool
  maxFileSizeMb : Nat

/-- The keep decision of `cold_scan` for one directory entry, translated from
the sequence of `continue` guards in src/fs/mod.rs lines 46-80.  Note that the
guards never consult the entry size: `cfg.max_file_size_mb` is not read
anywhere in `cold_scan` (nor anywhere else in the crate). -/
def keepFile (pol : ScanPolicy) (e : ScanEntry) : Bool :=
  e.isFile
    && (pol.includeHidden || !(startsWithDot e.fileName))
    && !(pol.mirrorRoot.isPrefixOf e.pathComponents)
    && pol.includeMatch e.pathComponents
    && !(pol.excludeMatch e.pathComponents)

/-! ## Event-bus publish (src/bus.rs, `Topic::publish`)

`publish` locks the subscriber list and runs
`subs.retain(|tx| tx.send(env.clone()).is_ok())` over bounded
`crossbeam_channel` senders.  `Sender::send` on a bounded channel returns
`Err` only when the receiver is disconnected; when the channel is full and
the receiver still lives, `send` blocks until space frees.  The model below
captures the one-step outcome: a disconnected subscriber is removed, a live
subscriber with room gets the event enqueued, and a live subscriber with a
full queue is retained while the publisher waits on it (flag `true` in the
result). -/

structure BusSub (E : Type) where
  queue : List E
  cap : Nat
  connected : Bool
deriving DecidableEq, Repr

/-- One `publish` pass over the subscriber list: the returned list is the
retained subscriber list (in order) and the flag records whether the
publisher had to wait on some live full queue. -/
def topicPublish {E : Type} (e : E) : List (BusSub E) → List (BusSub E) × Bool
  | [] => ([], false)
  | s :: rest =>
    if !s.connected then topicPublish e rest
    else if s.queue.length < s.cap then
      ({ s with queue := s.queue ++ [e] } :: (topicPublish e rest).1,
        (topicPublish e rest).2)
    else (s :: (topicPublish e rest).1, true)

/-! ## Page splitting (src/extract/mod.rs, `split_pages`)

Extracted text is split on the form-feed character; pages are 1-indexed and
carry start/end offsets in Unicode scalars (here: positions in the char
list).  `offset` accumulates across pages, adding one for each delimiter. -/

/-- A page block, as in `events::PageBlock` (`page_no`, `text`, `start`,
`end`); the source field `end` is a Lean keyword, rendered `end_`. -/
structure PageBlock where
  page_no : Nat
  text : List Char
  start : Nat
  end_ : Nat
deriving DecidableEq, Repr

/-- Rust's `text.split('\x0c')`: the list of segments between form feeds,
including empty ones (n delimiters yield n+1 segments). -/
def splitOnFF : List Char → List (List Char)
  | [] => [[]]
  | c :: rest =>
    if c = '\x0c' then [] :: splitOnFF rest
    else
      match splitOnFF rest with
      | [] => [[c]]
      | p :: ps => (c :: p) :: ps

/-- The enumerated loop body of `split_pages`: page index `i` (0-based) and
running scalar offset. -/
def splitPagesGo : List (List Char) → Nat → Nat → List PageBlock
  | [], _, _ => []
  | p :: ps, i, offset =>
    { page_no := i + 1, text := p, start := offset, end_ := offset + p.length }
      :: splitPagesGo ps (i + 1) (offset + p.length + 1)

/-- `split_pages` from src/extract/mod.rs. -/
def splitPages (text : List Char) : List PageBlock :=
  splitPagesGo (splitOnFF text) 0 0

/-- First configured root that is a component-wise prefix of the path, in
configuration order — the root `relativize` actually strips. -/
def firstMatchingRoot (path : List String) (roots : List (List String)) :
    Option (List String) :=
  roots.find? (fun r => r.isPrefixOf path)

/-! ## Whitespace and chunk-id normalization (src/mirror/mod.rs)

`make_chunk_id` hashes `file_uid`, `content_hash`, `page_no` as big-endian
u32, `start` and `end` as big-endian usize (8 bytes), and the normalized
text, where normalization rewrites CRLF and lone CR to LF and trims trailing
whitespace (`str::trim_end`, Unicode `White_Space`). -/

/-- Rust's `char::is_whitespace`: the Unicode `White_Space` code points. -/
def rustIsWhitespace (c : Char) : Bool :=
  c = '\x09' || c = '\x0a' || c = '\x0b' || c = '\x0c' || c = '\x0d'
    || c = ' ' || c = '\x85' || c = '\xa0' || c.toNat = 0x1680
    || (0x2000 ≤ c.toNat && c.toNat ≤ 0x200A)
    || c.toNat = 0x2028 || c.toNat = 0x2029 || c.toNat = 0x202F
    || c.toNat = 0x205F || c.toNat = 0x3000

/-- Rust's `str::replace("\r\n", "\n")`: left-to-right non-overlapping
replacement of each CRLF pair by LF. -/
def replaceCRLF : List Char → List Char
  | [] => []
  | [c] => [c]
  | c :: d :: rest =>
    if c = '\r' ∧ d = '\n' then '\n' :: replaceCRLF rest
    else c :: replaceCRLF (d :: rest)

/-- Rust's `str::replace('\r', "\n")` on a single char. -/
def crToLf (c : Char) : Char :=
  if c = '\r' then '\n' else c

/-- Rust's `str::trim_end`: drop trailing Unicode whitespace. -/
def trimEndWs (l : List Char) : List Char :=
  (l.reverse.dropWhile rustIsWhitespace).reverse

/-- The normalization inside `make_chunk_id`:
`text.replace("\r\n", "\n").replace('\r', "\n").trim_end()`. -/
def normalizeText (t : List Char) : List Char :=
  trimEndWs ((replaceCRLF t).map crToLf)

/-- UTF-8 encoding of one scalar value (Rust `str::as_bytes` per char). -/
def utf8EncodeChar (c : Char) : List Nat :=
  let n := c.toNat
  if n < 0x80 then [n]
  else if n < 0x800 then [0xC0 + n / 64, 0x80 + n % 64]
  else if n < 0x10000 then
    [0xE0 + n / 4096, 0x80 + n / 64 % 64, 0x80 + n % 64]
  else
    [0xF0 + n / 262144, 0x80 + n / 4096 % 64, 0x80 + n / 64 % 64, 0x80 + n % 64]

/-- UTF-8 bytes of a char sequence. -/
def utf8Bytes (l : List Char) : List Nat :=
  (l.map utf8EncodeChar).flatten

/-- Big-endian byte encoding of a number over `w` bytes (`to_be_bytes`). -/
def beBytes (w n : Nat) : List Nat :=
  (List.range w).map (fun i => n / 256 ^ (w - 1 - i) % 256)

/-- The exact byte stream fed to SHA-256 by `make_chunk_id`: file_uid bytes,
content_hash bytes, page_no as big-endian u32, start and end as big-endian
usize (8 bytes on a 64-bit target), then the normalized text bytes. -/
def chunkIdPayload (uid hash : List Char) (pageNo start end_ : Nat)
    (text : List Char) : List Nat :=
  utf8Bytes uid ++ utf8Bytes hash ++ beBytes 4 pageNo ++ beBytes 8 start
    ++ beBytes 8 end_ ++ utf8Bytes (normalizeText text)

/-- `make_chunk_id` from src/mirror/mod.rs, with the hex-encoded SHA-256
digest abstracted as a function `h` on the payload bytes (the claims proved
about chunk ids hold for every digest function). -/
def makeChunkId (h : List Nat → String) (uid hash : List Char)
    (pageNo start end_ : Nat) (text : List Char) : String :=
  "ch:" ++ h (chunkIdPayload uid hash pageNo start end_ text)

/-! ## Mirror chunker (src/mirror/mod.rs, `write_chunks_impl`)

Within one page the chunker advances `idx` over the page's chars; each chunk
grows `end` char by char, counting each maximal whitespace run as one token,
until the page ends or `TOKENS_PER_CHUNK` (200) tokens are counted.
`chunkScan` renders the nested scan loops as one recursion over the
remaining suffix: the `inRun` flag is true exactly while the inner
whitespace-run loop of the source is executing (the token was already
counted when the run was entered, matching the source, which counts it when
the run ends and performs no checks inside the run). -/

def tokensPerChunk : Nat := 200

/-- Number of chars consumed by one chunk, starting from the given suffix of
the page with `tokens` counted so far. -/
def chunkScan : List Char → Nat → Bool → Nat
  | [], _, _ => 0
  | c :: r, tokens, inRun =>
    if inRun && rustIsWhitespace c then 1 + chunkScan r tokens true
    else if tokens < tokensPerChunk then
      if rustIsWhitespace c then 1 + chunkScan r (tokens + 1) true
      else 1 + chunkScan r tokens false
    else 0

/-- The outer `while idx < chars.len()` loop of `write_chunks_impl`,
producing the (start, end) char spans of one page.  The recursion is driven
by fuel (any value at least the suffix length is enough, since each chunk
consumes at least one char); the `k = 0` guard mirrors the source's
`if end == idx break`. -/
def chunkLoopF : Nat → List Char → Nat → List (Nat × Nat)
  | 0, _, _ => []
  | _ + 1, [], _ => []
  | fuel + 1, c :: r, idx =>
    let k := chunkScan (c :: r) 0 false
    if k = 0 then []
    else (idx, idx + k) :: chunkLoopF fuel ((c :: r).drop k) (idx + k)

/-- The char spans of the chunks of one page. -/
def chunkSpans (chars : List Char) : List (Nat × Nat) :=
  chunkLoopF chars.length chars 0

/-- Chunk rows (chunk_id, ord) of one page, threading the running order
counter exactly as the source's `order` variable. -/
def spansWithOrd (h : List Nat → String) (uid hash : List Char)
    (pg : PageBlock) : List (Nat × Nat) → Nat → List (String × Nat)
  | [], _ => []
  | (s, e) :: rest, ord =>
    (makeChunkId h uid hash pg.page_no s e ((pg.text.drop s).take (e - s)), ord)
      :: spansWithOrd h uid hash pg rest (ord + 1)

/-- All chunk rows of a file: pages in order, `order` increasing across
pages as in `write_chunks_impl`. -/
def mirrorChunkRows (h : List Nat → String) (uid hash : List Char) :
    List PageBlock → Nat → List (String × Nat)
  | [], _ => []
  | pg :: rest, ord =>
    spansWithOrd h uid hash pg (chunkSpans pg.text) ord
      ++ mirrorChunkRows h uid hash rest (ord + (chunkSpans pg.text).length)

/-! ## In-catalog chunker (src/chunk.rs, `chunk_document`)

`chunk_document` works on BYTE offsets of the UTF-8 content: windows of
`chunk_size = 2000` bytes, each next window starting `overlap = 200` bytes
before the previous end, with both offsets bumped forward to the next char
boundary.  It has no page or token logic.  The content is modelled as the
char list; byte offsets are measured with `Char.utf8Size`. -/

def chunkSizeBytes : Nat := 2000

def overlapBytes : Nat := 200

/-- Byte length of the content (`str::len`). -/
def utf8Len (l : List Char) : Nat :=
  (l.map Char.utf8Size).sum

/-- Rust's `str::is_char_boundary` on the modelled content. -/
def isCharBoundary : List Char → Nat → Bool
  | [], i => i = 0
  | c :: r, i =>
    if i = 0 then true
    else if i < c.utf8Size then false
    else isCharBoundary r (i - c.utf8Size)

/-- The loop `while end < len && !is_char_boundary(end) end += 1` (fuel-driven;
any fuel at least `len` suffices). -/
def bumpToBoundary (content : List Char) : Nat → Nat → Nat
  | 0, i => i
  | fuel + 1, i =>
    if i < utf8Len content ∧ ¬ isCharBoundary content i then
      bumpToBoundary content fuel (i + 1)
    else i

/-- The loop `while start > 0 && !is_char_boundary(start) start += 1`. -/
def bumpStart (content : List Char) : Nat → Nat → Nat
  | 0, i => i
  | fuel + 1, i =>
    if 0 < i ∧ ¬ isCharBoundary content i then bumpStart content fuel (i + 1)
    else i

/-- The `while start < len` loop of `chunk_document`, producing the byte
spans of the catalog chunks (fuel-driven; each iteration advances `start`). -/
def chunkDocGo (content : List Char) : Nat → Nat → List (Nat × Nat)
  | 0, _ => []
  | fuel + 1, start =>
    if start < utf8Len content then
      let e := bumpToBoundary content (utf8Len content)
        (min (start + chunkSizeBytes) (utf8Len content))
      if e = utf8Len content then [(start, e)]
      else (start, e)
        :: chunkDocGo content fuel (bumpStart content (utf8Len content) (e - overlapBytes))
    else []

/-- Byte spans of the chunks `chunk_document` inserts for one document. -/
def chunkDocSpans (content : List Char) : List (Nat × Nat) :=
  chunkDocGo content (utf8Len content + 1) 0

/-- The text `"a "` repeated `n` times — concrete input separating the two
chunkers. -/
def repAB : Nat → List Char
  | 0 => []
  | n + 1 => 'a' :: ' ' :: repAB n

/-- Formalization of two texts differing only in CRLF versus LF line
endings: equal chars outside carriage returns, with each line break written
either as CRLF or as LF on each side. -/
inductive EolEq : List Char → List Char → Prop
  | nil : EolEq [] []
  | cons (c : Char) (r1 r2 : List Char) :
      c ≠ '\r' → EolEq r1 r2 → EolEq (c :: r1) (c :: r2)
  | crlfLf (r1 r2 : List Char) :
      EolEq r1 r2 → EolEq ('\r' :: '\n' :: r1) ('\n' :: r2)
  | lfCrlf (r1 r2 : List Char) :
      EolEq r1 r2 → EolEq ('\n' :: r1) ('\r' :: '\n' :: r2)
  | crlfCrlf (r1 r2 : List Char) :
      EolEq r1 r2 → EolEq ('\r' :: '\n' :: r1) ('\r' :: '\n' :: r2)

/-! ## Reciprocal Rank Fusion (src/search/mod.rs, `rrf` / `hybrid_chunks`)

`rrf` accumulates, per chunk id, contributions `1 / (k_rrf + rank + 1)` with
`k_rrf = 60.0` from the keyword list and the semantic list (rank is the
0-based position), keeping the first-seen hit's fields; the fused entries
are then sorted by descending score and truncated to K.  The f32 score
arithmetic is modelled with exact rationals; the `HashMap` accumulator is
modelled as an association list keyed by chunk id (the source's iteration
order before sorting is unspecified, and no proved property depends on it);
Rust's stable `sort_by` on the descending-score comparator is modelled by a
stable insertion sort. -/

structure ChunkHit where
  path : String
  score : ℚ
  chunk_id : String
  start_byte : Int
  end_byte : Int
deriving DecidableEq, Repr

def kRrf : ℚ := 60

/-- One list contribution at a 0-based rank: `1.0 / (k_rrf + rank + 1.0)`. -/
def rrfContrib (rank : Nat) : ℚ :=
  1 / (kRrf + rank + 1)

/-- `scores.entry(id).and_modify(add).or_insert((item, contrib))`: the first
entry with the item's chunk id gets the contribution added (keeping the
stored hit), otherwise a new entry is appended. -/
def upsertHit : List (String × ChunkHit × ℚ) → ChunkHit → ℚ →
    List (String × ChunkHit × ℚ)
  | [], item, contrib => [(item.chunk_id, item, contrib)]
  | (key, hit, s) :: rest, item, contrib =>
    if key = item.chunk_id then (key, hit, s + contrib) :: rest
    else (key, hit, s) :: upsertHit rest item contrib

/-- The `for (rank, item) in list.iter().enumerate()` accumulation loop. -/
def foldHits : List (String × ChunkHit × ℚ) → List ChunkHit → Nat →
    List (String × ChunkHit × ℚ)
  | m, [], _ => m
  | m, item :: rest, rank => foldHits (upsertHit m item (rrfContrib rank)) rest (rank + 1)

/-- Stable insertion into a descending-by-score list (an element moves past
another only when its score is strictly larger). -/
def insertByScore (x : ChunkHit) : List ChunkHit → List ChunkHit
  | [] => [x]
  | y :: ys => if y.score ≤ x.score then x :: y :: ys else y :: insertByScore x ys

/-- Stable sort by descending score, modelling `sort_by(|a, b|
b.score.total_cmp(&a.score))`. -/
def sortByScoreDesc : List ChunkHit → List ChunkHit
  | [] => []
  | x :: xs => insertByScore x (sortByScoreDesc xs)

/-- `rrf` from src/search/mod.rs: fuse the two hit lists, sort by descending
fused score, truncate to K. -/
def rrf (bm25 ann : List ChunkHit) (topK : Nat) : List ChunkHit :=
  (sortByScoreDesc
      ((foldHits (foldHits [] bm25 0) ann 0).map
        (fun e => { e.2.1 with score := e.2.2 }))).take topK

/-- Spec-side fused score of a chunk id within one list starting at a given
rank: the sum of `rrfContrib` over the positions holding that id. -/
def fusedFrom : List ChunkHit → Nat → String → ℚ
  | [], _, _ => 0
  | x :: xs, rank, id =>
    (if x.chunk_id = id then rrfContrib rank else 0) + fusedFrom xs (rank + 1) id

/-- Spec-side fused score of a chunk id in one list (ranks from 0). -/
def fusedScore (l : List ChunkHit) (id : String) : ℚ :=
  fusedFrom l 0 id

/-- Score stored in the accumulator for a chunk id (0 when absent). -/
def lookupScore (m : List (String × ChunkHit × ℚ)) (id : String) : ℚ :=
  match m.find? (fun e => e.1 = id) with
  | some e => e.2.2
  | none => 0

/-! ## Mirror builder failure recovery (src/mirror/mod.rs, `handle_extraction`)

`handle_extraction` resolves the mirror directory, then (0) writes
`meta.json` atomically via `meta.json.tmp`, (1) upserts the `mirror_docs`
row and deletes the existing `mirror_chunks` rows for the file, (2..n+1)
writes each chunk line to `chunks.jsonl.tmp`, inserts its `mirror_chunks`
row and publishes a chunk-upserted event, and (n+2) fsyncs and renames
`chunks.jsonl` and publishes the doc-upserted event.  If any of these steps
fails, the recovery block deletes `meta.json`, `chunks.jsonl` and both
`.tmp` files, deletes the `mirror_docs` and `mirror_chunks` rows for the
file_uid, publishes a doc-deleted event and returns the error.  The model
tracks the per-file state: which of the four files exist in the mirror
directory, the `mirror_docs` row for this file_uid, its `mirror_chunks`
rows, and the published mirror events; `failAt` injects a failure after the
effects of the given step (the worst case for the recovery obligation); the
deletes of the recovery block itself are modelled as succeeding. -/

inductive MirrorEv where
  | chunkUpserted (id : String) (ord : Nat)
  | docUpserted
  | docDeleted
deriving DecidableEq, Repr

structure MirrorFs where
  meta : Bool
  chunks : Bool
  metaTmp : Bool
  chunksTmp : Bool
deriving DecidableEq, Repr

structure MirrorSt where
  fsF : MirrorFs
  docRow : Option (List Char)
  chunkRows : List (String × Nat)
  published : List MirrorEv
deriving DecidableEq, Repr

/-- The recovery block: remove the four files, the rows for the file_uid,
publish the doc-deleted event, return the error. -/
def mirrorCleanup (st : MirrorSt) : MirrorSt × Bool :=
  ({ fsF := { meta := false, chunks := false, metaTmp := false, chunksTmp := false },
     docRow := none, chunkRows := [],
     published := st.published ++ [MirrorEv.docDeleted] }, false)

/-- The chunk-writing loop with failure injection: each chunk appends a line
to the tmp file, inserts its row and publishes its event, then the loop
fails if this step is the injected one. -/
def runChunkSteps : List (String × Nat) → Nat → Option Nat → MirrorSt →
    MirrorSt × Bool
  | [], _, _, st => (st, true)
  | (id, ord) :: rest, step, failAt, st =>
    let st' : MirrorSt :=
      { st with
        fsF := { st.fsF with chunksTmp := true },
        chunkRows := st.chunkRows ++ [(id, ord)],
        published := st.published ++ [MirrorEv.chunkUpserted id ord] }
    if failAt = some step then (st', false)
    else runChunkSteps rest (step + 1) failAt st'

/-- `handle_extraction` after directory resolution, as a state transition
with an injected failure point; the boolean result is `true` on success and
`false` when the error is returned. -/
def handleExtraction (h : List Nat → String) (uid hash : List Char)
    (pages : List PageBlock) (failAt : Option Nat) (st : MirrorSt) :
    MirrorSt × Bool :=
  if failAt = some 0 then
    mirrorCleanup { st with fsF := { st.fsF with metaTmp := true } }
  else
    let st0 : MirrorSt :=
      { st with fsF := { st.fsF with meta := true, metaTmp := false } }
    if failAt = some 1 then
      mirrorCleanup { st0 with docRow := some hash, chunkRows := [] }
    else
      let st1 : MirrorSt := { st0 with docRow := some hash, chunkRows := [] }
      let res := runChunkSteps (mirrorChunkRows h uid hash pages 0) 2 failAt st1
      if res.2 = false then mirrorCleanup res.1
      else if failAt = some (2 + (mirrorChunkRows h uid hash pages 0).length) then
        mirrorCleanup { res.1 with fsF := { res.1.fsF with chunksTmp := true } }
      else
        ({ res.1 with
            fsF := { res.1.fsF with chunks := true, chunksTmp := false },
            published := res.1.published ++ [MirrorEv.docUpserted] }, true)

end Findx

open Findx

/-- C1: after `db::open`, the relational schema contains exactly the tables
files, ops_log, documents, chunks, embeddings and events; `files.realpath` is
unique, but no `extract_jobs`, `mirror_docs` or `mirror_chunks` table is ever
created, and in particular no table carries the `(file_uid, content_hash)`
uniqueness the extraction worker's `ON CONFLICT` clause relies on. -/
theorem findx_c1_open_schema_divergence :
    openSchema.map TableDef.name
        = ["files", "ops_log", "documents", "chunks", "embeddings", "events"]
      ∧ workerJobInsertTable = "extract_jobs"
      ∧ "extract_jobs" ∉ openSchema.map TableDef.name
      ∧ "mirror_docs" ∉ openSchema.map TableDef.name
      ∧ "mirror_chunks" ∉ openSchema.map TableDef.name
      ∧ (∃ t, t ∈ openSchema ∧ t.name = "files" ∧ ["realpath"] ∈ t.uniqueSets)
      ∧ (∀ t, t ∈ openSchema → workerJobConflictCols ∉ t.uniqueSets) := by
  refine ⟨by decide, rfl, by decide, by decide, by decide, ?_, by decide⟩
  exact ⟨openSchema.get ⟨0, by decide⟩, by decide, by decide, by decide⟩

/-- C4 counterexample: with nested roots configured as `r` before `r/s`, the
path `r/s/c.txt` is relativized by stripping the first matching root `r`,
giving `s/c.txt`, not by stripping the longest matching root `r/s`, which
would give `c.txt`. -/
theorem findx_c4_counterexample :
    relativize ["r", "s", "c.txt"] [["r"], ["r", "s"]] = ["s", "c.txt"]
      ∧ relativizeLongest ["r", "s", "c.txt"] [["r"], ["r", "s"]] = ["c.txt"]
      ∧ relativize ["r", "s", "c.txt"] [["r"], ["r", "s"]]
          ≠ relativizeLongest ["r", "s", "c.txt"] [["r"], ["r", "s"]] := by
  decide

/-- C4 (amended): the relative mirror path is computed by stripping the
first configured root, in configuration order, that is a component-wise
prefix of the path; if no root matches, the path is returned unchanged. -/
theorem findx_c4_relativize_first_match :
    ∀ (path : List String) (roots : List (List String)),
      (∀ r, firstMatchingRoot path roots = some r →
          relativize path roots = path.drop r.length)
      ∧ (firstMatchingRoot path roots = none → relativize path roots = path) := by
  intro path roots
  induction roots with
  | nil => exact ⟨fun r h => by simp [firstMatchingRoot] at h, fun _ => rfl⟩
  | cons root rest ih =>
    have hcons : firstMatchingRoot path (root :: rest)
        = if root.isPrefixOf path then some root
          else firstMatchingRoot path rest := by
      cases hp : root.isPrefixOf path <;>
        simp [firstMatchingRoot, List.find?, hp]
    constructor
    · intro r h
      rw [hcons] at h
      by_cases hp : (root.isPrefixOf path : Bool) = true
      · rw [if_pos (by simp [hp])] at h
        cases h
        simp [relativize, hp]
      · simp only [Bool.not_eq_true] at hp
        rw [if_neg (by simp [hp])] at h
        have := ih.1 r h
        simpa [relativize, hp] using this
    · intro h
      rw [hcons] at h
      by_cases hp : (root.isPrefixOf path : Bool) = true
      · rw [if_pos (by simp [hp])] at h
        cases h
      · simp only [Bool.not_eq_true] at hp
        rw [if_neg (by simp [hp])] at h
        simpa [relativize, hp] using ih.2 h

/-- C4 witness: concrete application of the amended relativization theorem. -/
theorem findx_c4_witness :
    relativize ["r", "s", "c.txt"] [["r"], ["r", "s"]] = ["s", "c.txt"] := by
  have h := (findx_c4_relativize_first_match ["r", "s", "c.txt"]
      [["r"], ["r", "s"]]).1 ["r"] (by decide)
  simpa using h

/-- C5: the cold-scan keep decision honors the include and exclude globs, the
hidden-file policy and the mirror-root exclusion, but it never consults the
entry's size: a 201 MiB file is kept even though `max_file_size_mb` is 200,
contradicting the claim that oversized files are excluded from the delta. -/
theorem findx_c5_size_never_checked :
    (∀ (pol : ScanPolicy) (e : ScanEntry) (n m : Nat),
        keepFile pol { e with size := n } = keepFile pol { e with size := m })
      ∧ keepFile
          { includeHidden := false, mirrorRoot := ["m"],
            includeMatch := fun _ => true, excludeMatch := fun _ => false,
            maxFileSizeMb := 200 }
          { pathComponents := ["root", "big.txt"], fileName := ['b', 'i', 'g'],
            isFile := true, size := 201 * 1024 * 1024 } = true := by
  exact ⟨fun pol e n m => rfl, by decide⟩

/-- C2 counterexample: a live subscriber whose bounded queue is full (capacity
1, one queued event) is not removed by publish — it stays in the subscriber
list — and the publisher waits on its queue, contrary to the claim of a
silent drop without waiting. -/
theorem findx_c2_counterexample :
    ¬ (({ queue := [0], cap := 1, connected := true } : BusSub Nat).queue.length
        < ({ queue := [0], cap := 1, connected := true } : BusSub Nat).cap)
      ∧ (topicPublish 1 [({ queue := [0], cap := 1, connected := true } : BusSub Nat)]).1
          = [{ queue := [0], cap := 1, connected := true }]
      ∧ (topicPublish 1 [({ queue := [0], cap := 1, connected := true } : BusSub Nat)]).2
          = true := by
  decide

/-- C2 (amended): publish removes exactly the disconnected subscribers;
every live subscriber with spare capacity receives the event; a live
subscriber with a full queue is retained and the publisher waits on it
(`crossbeam_channel::Sender::send` blocks on a full connected channel); the
wait flag is set iff some live subscriber's queue is full. -/
theorem findx_c2_publish_behavior :
    ∀ (E : Type) (e : E) (subs : List (BusSub E)),
      (topicPublish e subs).1.length
          = (subs.filter (fun s => s.connected)).length
        ∧ (∀ s, s ∈ subs → s.connected = true → s.queue.length < s.cap →
            { s with queue := s.queue ++ [e] } ∈ (topicPublish e subs).1)
        ∧ (∀ s, s ∈ subs → s.connected = true → ¬ s.queue.length < s.cap →
            s ∈ (topicPublish e subs).1 ∧ (topicPublish e subs).2 = true)
        ∧ (∀ s, s ∈ (topicPublish e subs).1 → s.connected = true)
        ∧ (topicPublish e subs).2
            = subs.any (fun s => s.connected && !(s.queue.length < s.cap)) := by
  intro E e subs
  have hdead : ∀ (s : BusSub E) rest, s.connected = false →
      topicPublish e (s :: rest) = topicPublish e rest := by
    intro s rest h; simp [topicPublish, h]
  have hroom : ∀ (s : BusSub E) rest, s.connected = true →
      s.queue.length < s.cap →
      topicPublish e (s :: rest)
        = ({ s with queue := s.queue ++ [e] } :: (topicPublish e rest).1,
            (topicPublish e rest).2) := by
    intro s rest h hq; simp [topicPublish, h, hq]
  have hfull : ∀ (s : BusSub E) rest, s.connected = true →
      ¬ s.queue.length < s.cap →
      topicPublish e (s :: rest) = (s :: (topicPublish e rest).1, true) := by
    intro s rest h hq; simp [topicPublish, h, hq]
  induction subs with
  | nil => exact ⟨rfl, by simp, by simp, by simp [topicPublish], by simp [topicPublish]⟩
  | cons s rest ih =>
    obtain ⟨ihlen, ihdeliv, ihfull, ihconn, ihflag⟩ := ih
    by_cases hc : s.connected = true
    · by_cases hq : s.queue.length < s.cap
      · rw [hroom s rest hc hq]
        refine ⟨by simp [ihlen, hc], ?_, ?_, ?_, by simp [ihflag, hc, hq]⟩
        · intro t ht htc htq
          rcases List.mem_cons.mp ht with h | h
          · subst h; exact List.mem_cons_self _ _
          · exact List.mem_cons_of_mem _ (ihdeliv t h htc htq)
        · intro t ht htc htq
          rcases List.mem_cons.mp ht with h | h
          · subst h; exact absurd hq htq
          · obtain ⟨h1, h2⟩ := ihfull t h htc htq
            exact ⟨List.mem_cons_of_mem _ h1, h2⟩
        · intro t ht
          rcases List.mem_cons.mp ht with h | h
          · subst h; exact hc
          · exact ihconn t h
      · rw [hfull s rest hc hq]
        refine ⟨by simp [ihlen, hc], ?_, ?_, ?_, by simp [hc, hq]⟩
        · intro t ht htc htq
          rcases List.mem_cons.mp ht with h | h
          · subst h; exact absurd htq hq
          · exact List.mem_cons_of_mem _ (ihdeliv t h htc htq)
        · intro t ht htc htq
          rcases List.mem_cons.mp ht with h | h
          · subst h; exact ⟨List.mem_cons_self _ _, rfl⟩
          · exact ⟨List.mem_cons_of_mem _ (ihfull t h htc htq).1, rfl⟩
        · intro t ht
          rcases List.mem_cons.mp ht with h | h
          · subst h; exact hc
          · exact ihconn t h
    · have hc' : s.connected = false := by
        cases h : s.connected
        · rfl
        · exact absurd h hc
      rw [hdead s rest hc']
      refine ⟨by simp [ihlen, hc'], ?_, ?_, ihconn, by simp [ihflag, hc']⟩
      · intro t ht htc htq
        rcases List.mem_cons.mp ht with h | h
        · subst h; exact absurd htc hc
        · exact ihdeliv t h htc htq
      · intro t ht htc htq
        rcases List.mem_cons.mp ht with h | h
        · subst h; exact absurd htc hc
        · exact ihfull t h htc htq

/-- C2 witness: concrete application of the publish-behavior theorem — a live
subscriber with room receives the published event. -/
theorem findx_c2_witness :
    ({ queue := [7], cap := 1, connected := true } : BusSub Nat)
      ∈ (topicPublish 7 [({ queue := [], cap := 1, connected := true } : BusSub Nat)]).1 :=
  (findx_c2_publish_behavior Nat 7
      [{ queue := [], cap := 1, connected := true }]).2.1
    { queue := [], cap := 1, connected := true } (by decide) (by decide) (by decide)

/-- Helper: the first page produced by `splitPagesGo` starts at the running
offset. -/
theorem splitPagesGo_head_start :
    ∀ (ps : List (List Char)) (i off : Nat) (b : PageBlock),
      b ∈ (splitPagesGo ps i off).head? → b.start = off := by
  intro ps
  cases ps with
  | nil => intro i off b h; simp [splitPagesGo] at h
  | cons p rest =>
    intro i off b h
    simp [splitPagesGo] at h
    subst h
    rfl

/-- Helper: page numbers, end offsets and start chaining of `splitPagesGo`. -/
theorem splitPagesGo_spec :
    ∀ (ps : List (List Char)) (i off : Nat),
      (splitPagesGo ps i off).map PageBlock.page_no
          = List.range' (i + 1) ps.length
        ∧ (∀ b, b ∈ splitPagesGo ps i off → b.end_ = b.start + b.text.length)
        ∧ List.Chain' (fun a b => b.start = a.end_ + 1) (splitPagesGo ps i off) := by
  intro ps
  induction ps with
  | nil => intro i off; exact ⟨rfl, by simp [splitPagesGo], by simp [splitPagesGo]⟩
  | cons p rest ih =>
    intro i off
    obtain ⟨ih1, ih2, ih3⟩ := ih (i + 1) (off + p.length + 1)
    refine ⟨?_, ?_, ?_⟩
    · simp [splitPagesGo, List.range', ih1]
    · intro b hb
      rcases List.mem_cons.mp hb with h | h
      · subst h; rfl
      · exact ih2 b h
    · refine List.chain'_cons'.mpr ⟨?_, ih3⟩
      intro b hb
      have := splitPagesGo_head_start rest (i + 1) (off + p.length + 1) b hb
      simp [this]

/-- Helper: `splitPagesGo` yields one page block per segment. -/
theorem splitPagesGo_length :
    ∀ (ps : List (List Char)) (i off : Nat),
      (splitPagesGo ps i off).length = ps.length := by
  intro ps
  induction ps with
  | nil => intro i off; rfl
  | cons p rest ih => intro i off; simp [splitPagesGo, ih]

/-- C8: `split_pages` splits the extracted text on the form feed into
1-indexed pages whose `end` equals `start` plus the page's Unicode scalar
length, with each next page starting one past the previous page's end; on
the concrete input αβγ, form feed, δεζ the pages are (1, 0, 3) and (2, 4, 7)
with both texts preserved exactly. -/
theorem findx_c8_split_pages :
    (∀ text : List Char,
        (splitPages text).map PageBlock.page_no
            = List.range' 1 (splitPages text).length
          ∧ (∀ b, b ∈ splitPages text → b.end_ = b.start + b.text.length)
          ∧ List.Chain' (fun a b => b.start = a.end_ + 1) (splitPages text))
      ∧ splitPages ['α', 'β', 'γ', '\x0c', 'δ', 'ε', 'ζ']
          = [ { page_no := 1, text := ['α', 'β', 'γ'], start := 0, end_ := 3 },
              { page_no := 2, text := ['δ', 'ε', 'ζ'], start := 4, end_ := 7 } ] := by
  constructor
  · intro text
    obtain ⟨h1, h2, h3⟩ := splitPagesGo_spec (splitOnFF text) 0 0
    refine ⟨?_, h2, h3⟩
    show (splitPagesGo (splitOnFF text) 0 0).map PageBlock.page_no
        = List.range' 1 (splitPagesGo (splitOnFF text) 0 0).length
    rw [splitPagesGo_length]
    exact h1
  · decide

/-- C8 witness: the end-offset clause applied at the first page of the
concrete two-page input. -/
theorem findx_c8_witness :
    ({ page_no := 1, text := ['α', 'β', 'γ'], start := 0, end_ := 3 } : PageBlock).end_
      = ({ page_no := 1, text := ['α', 'β', 'γ'], start := 0, end_ := 3 } : PageBlock).start
        + ({ page_no := 1, text := ['α', 'β', 'γ'], start := 0, end_ := 3 } : PageBlock).text.length :=
  (findx_c8_split_pages.1 ['α', 'β', 'γ', '\x0c', 'δ', 'ε', 'ζ']).2.1
    { page_no := 1, text := ['α', 'β', 'γ'], start := 0, end_ := 3 } (by decide)

/-- C1 witness: the universally quantified clause applied at the first table
of the schema. -/
theorem findx_c1_witness :
    workerJobConflictCols ∉ (openSchema.get ⟨0, by decide⟩).uniqueSets :=
  findx_c1_open_schema_divergence.2.2.2.2.2.2 (openSchema.get ⟨0, by decide⟩)
    (by decide)

/-- Helper: the boundary-bump loop is a no-op when its condition fails. -/
theorem bumpToBoundary_stop (content : List Char) (fuel i : Nat)
    (h : ¬ (i < utf8Len content ∧ ¬ isCharBoundary content i)) :
    bumpToBoundary content fuel i = i := by
  cases fuel with
  | zero => rfl
  | succ f => simp only [bumpToBoundary, if_neg h]

set_option maxRecDepth 8000 in
/-- C3 counterexample: on the single-page text `"a "` repeated 250 times the
mirror chunker (`write_chunks_impl`) emits two chunks while the in-catalog
chunker (`chunk_document`) emits one, so the two are not equivalent
chunkings of the same text. -/
theorem findx_c3_counterexample :
    (chunkSpans (repAB 250)).length = 2
      ∧ (chunkDocSpans (repAB 250)).length = 1
      ∧ chunkSpans (repAB 250) ≠ chunkDocSpans (repAB 250) := by
  decide

set_option maxRecDepth 8000 in
/-- C3 (amended): the in-catalog chunking of `chunk_all`/`chunk_document` is
not the §4.5.1 token algorithm of the mirror builder: it cuts fixed
2000-byte windows with 200-byte overlap and no token or page logic — any
document of at most 2000 bytes is a single catalog chunk regardless of its
token count, while on `"a "` × 250 (500 bytes, 250 tokens) the mirror
chunker produces the spans (0,400),(400,500) and the catalog chunker
produces (0,500). -/
theorem findx_c3_catalog_chunker :
    (∀ content : List Char, 0 < utf8Len content →
        utf8Len content ≤ chunkSizeBytes →
        chunkDocSpans content = [(0, utf8Len content)])
      ∧ chunkSpans (repAB 250) = [(0, 400), (400, 500)]
      ∧ chunkDocSpans (repAB 250) = [(0, 500)] := by
  refine ⟨?_, by decide, by decide⟩
  intro content h0 h2
  have hmin : min (0 + chunkSizeBytes) (utf8Len content) = utf8Len content := by
    omega
  have hb : bumpToBoundary content (utf8Len content) (utf8Len content)
      = utf8Len content :=
    bumpToBoundary_stop content _ _ (by omega)
  simp only [chunkDocSpans, chunkDocGo, if_pos h0, hmin, hb]
  simp

/-- C3 witness: the single-window clause applied to the one-byte document. -/
theorem findx_c3_witness :
    chunkDocSpans ['a'] = [(0, utf8Len ['a'])] :=
  findx_c3_catalog_chunker.1 ['a'] (by decide) (by decide)

/-- Helper: one chunk scan never consumes more than the remaining page. -/
theorem chunkScan_le :
    ∀ (l : List Char) (t : Nat) (b : Bool), chunkScan l t b ≤ l.length := by
  intro l
  induction l with
  | nil => intro t b; simp [chunkScan]
  | cons c r ih =>
    intro t b
    simp only [chunkScan, List.length_cons]
    split_ifs with h1 h2 h3
    · have := ih t true; omega
    · have := ih (t + 1) true; omega
    · have := ih t false; omega
    · omega

/-- Helper: on a non-empty suffix a chunk scan consumes at least one char
(the dead `if end == idx break` guard of the source never fires). -/
theorem chunkScan_pos (c : Char) (r : List Char) :
    1 ≤ chunkScan (c :: r) 0 false := by
  simp only [chunkScan]
  split_ifs with h1 h2 h3
  · omega
  · omega
  · omega
  · exact absurd (by simp [tokensPerChunk]) h2

/-- Helper: the chunk loop on an empty suffix yields no chunks. -/
theorem chunkLoopF_nil : ∀ (f idx : Nat), chunkLoopF f [] idx = [] := by
  intro f idx
  cases f <;> rfl

/-- Helper: `getLast?` of a cons with non-empty tail. -/
theorem getLast?_cons_ne {α : Type} (a : α) (l : List α) (h : l ≠ []) :
    (a :: l).getLast? = l.getLast? := by
  cases l with
  | nil => exact absurd rfl h
  | cons b m => rfl

/-- Helper: full behavior of the page chunk loop, for any sufficient fuel:
the spans are non-empty and contiguous, start at `idx`, end at
`idx + l.length`, and their texts concatenate back to the scanned suffix. -/
theorem chunkLoopF_spec :
    ∀ (fuel : Nat) (chars l : List Char) (idx : Nat),
      l.length ≤ fuel → chars.drop idx = l → l ≠ [] →
      chunkLoopF fuel l idx ≠ []
        ∧ (chunkLoopF fuel l idx).head?.map Prod.fst = some idx
        ∧ List.Chain' (fun a b => b.1 = a.2) (chunkLoopF fuel l idx)
        ∧ (chunkLoopF fuel l idx).getLast?.map Prod.snd = some (idx + l.length)
        ∧ ((chunkLoopF fuel l idx).map
              (fun p => (chars.drop p.1).take (p.2 - p.1))).flatten = l := by
  intro fuel
  induction fuel with
  | zero =>
    intro chars l idx hle hdrop hne
    cases l with
    | nil => exact absurd rfl hne
    | cons c r => simp at hle
  | succ f ih =>
    intro chars l idx hle hdrop hne
    obtain ⟨c, r, rfl⟩ := List.exists_cons_of_ne_nil hne
    have hk1 : 1 ≤ chunkScan (c :: r) 0 false := chunkScan_pos c r
    have hkle : chunkScan (c :: r) 0 false ≤ (c :: r).length :=
      chunkScan_le (c :: r) 0 false
    have hstep : chunkLoopF (f + 1) (c :: r) idx
        = (idx, idx + chunkScan (c :: r) 0 false)
          :: chunkLoopF f ((c :: r).drop (chunkScan (c :: r) 0 false))
              (idx + chunkScan (c :: r) 0 false) := by
      simp only [chunkLoopF]
      rw [if_neg (by omega)]
    rw [hstep]
    by_cases hrest : (c :: r).drop (chunkScan (c :: r) 0 false) = []
    · have hkeq : chunkScan (c :: r) 0 false = (c :: r).length := by
        have := List.drop_eq_nil_iff.mp hrest
        omega
      rw [hrest, chunkLoopF_nil]
      refine ⟨by simp, by simp, by simp, by simp [hkeq], ?_⟩
      have h1 : (chars.drop idx).take
            (idx + chunkScan (c :: r) 0 false - idx) = c :: r := by
        rw [hdrop, Nat.add_sub_cancel_left, hkeq, List.take_length]
      simpa using h1
    · have hlen' : ((c :: r).drop (chunkScan (c :: r) 0 false)).length ≤ f := by
        simp only [List.length_drop]
        simp only [List.length_cons] at hle ⊢
        omega
      have hdrop' : chars.drop (idx + chunkScan (c :: r) 0 false)
          = (c :: r).drop (chunkScan (c :: r) 0 false) := by
        rw [← hdrop, List.drop_drop]
      obtain ⟨ihne, ihhead, ihchain, ihlast, ihflat⟩ :=
        ih chars ((c :: r).drop (chunkScan (c :: r) 0 false))
          (idx + chunkScan (c :: r) 0 false) hlen' hdrop' hrest
      refine ⟨by simp, by simp, ?_, ?_, ?_⟩
      · refine List.chain'_cons'.mpr ⟨?_, ihchain⟩
        intro b hb
        have hh : (chunkLoopF f ((c :: r).drop (chunkScan (c :: r) 0 false))
            (idx + chunkScan (c :: r) 0 false)).head? = some b := hb
        rw [hh] at ihhead
        simp only [Option.map_some'] at ihhead
        exact Option.some_injective _ ihhead
      · rw [getLast?_cons_ne _ _ ihne, ihlast]
        have : idx + chunkScan (c :: r) 0 false
            + ((c :: r).drop (chunkScan (c :: r) 0 false)).length
            = idx + (c :: r).length := by
          simp only [List.length_drop]
          omega
        rw [this]
      · have h1 : (chars.drop idx).take
            (idx + chunkScan (c :: r) 0 false - idx)
            = (c :: r).take (chunkScan (c :: r) 0 false) := by
          rw [hdrop, Nat.add_sub_cancel_left]
        simp only [List.map_cons, List.flatten_cons, ihflat, h1]
        exact List.take_append_drop _ _

/-- Helper: order values produced for one page are consecutive. -/
theorem spansWithOrd_snd (h : List Nat → String) (uid hash : List Char)
    (pg : PageBlock) :
    ∀ (sp : List (Nat × Nat)) (ord : Nat),
      (spansWithOrd h uid hash pg sp ord).map Prod.snd
        = List.range' ord sp.length := by
  intro sp
  induction sp with
  | nil => intro ord; rfl
  | cons p rest ih =>
    intro ord
    obtain ⟨s, e⟩ := p
    simp [spansWithOrd, List.range', ih]

/-- Helper: one chunk row per span. -/
theorem spansWithOrd_length (h : List Nat → String) (uid hash : List Char)
    (pg : PageBlock) :
    ∀ (sp : List (Nat × Nat)) (ord : Nat),
      (spansWithOrd h uid hash pg sp ord).length = sp.length := by
  intro sp
  induction sp with
  | nil => intro ord; rfl
  | cons p rest ih =>
    intro ord
    obtain ⟨s, e⟩ := p
    simp [spansWithOrd, ih]

/-- Helper: across the whole file the order column is consecutive from the
initial counter. -/
theorem mirrorChunkRows_snd (h : List Nat → String) (uid hash : List Char) :
    ∀ (pages : List PageBlock) (ord : Nat),
      (mirrorChunkRows h uid hash pages ord).map Prod.snd
        = List.range' ord (mirrorChunkRows h uid hash pages ord).length := by
  intro pages
  induction pages with
  | nil => intro ord; rfl
  | cons pg rest ih =>
    intro ord
    simp only [mirrorChunkRows, List.map_append, List.length_append,
      spansWithOrd_snd, spansWithOrd_length, ih]
    have hr := List.range'_append ord (chunkSpans pg.text).length
      (mirrorChunkRows h uid hash rest
        (ord + (chunkSpans pg.text).length)).length 1
    simp only [one_mul] at hr
    rw [hr, Nat.add_comm]

/-- C10: on every non-empty page the mirror chunker's spans partition the
page exactly — the first span starts at 0, each next span starts where the
previous ended, the last span ends at the page's char length, and the chunk
texts concatenate back to the page text — and across the whole file the
chunk order column is exactly 0, 1, 2, ... -/
theorem findx_c10_mirror_partition :
    (∀ chars : List Char, chars ≠ [] →
        (chunkSpans chars).head?.map Prod.fst = some 0
          ∧ List.Chain' (fun a b => b.1 = a.2) (chunkSpans chars)
          ∧ (chunkSpans chars).getLast?.map Prod.snd = some chars.length
          ∧ ((chunkSpans chars).map
                (fun p => (chars.drop p.1).take (p.2 - p.1))).flatten = chars)
      ∧ (∀ (h : List Nat → String) (uid hash : List Char)
            (pages : List PageBlock),
          (mirrorChunkRows h uid hash pages 0).map Prod.snd
            = List.range (mirrorChunkRows h uid hash pages 0).length) := by
  constructor
  · intro chars hne
    obtain ⟨h1, h2, h3, h4, h5⟩ :=
      chunkLoopF_spec chars.length chars chars 0 (le_refl _) (by simp) hne
    exact ⟨h2, h3, by simpa using h4, h5⟩
  · intro h uid hash pages
    rw [List.range_eq_range']
    exact mirrorChunkRows_snd h uid hash pages 0

/-- C10 witness: the partition clauses applied to the concrete two-chunk
page consisting of the chars of "hi". -/
theorem findx_c10_witness :
    (chunkSpans ['h', 'i']).head?.map Prod.fst = some 0
      ∧ List.Chain' (fun a b => b.1 = a.2) (chunkSpans ['h', 'i'])
      ∧ (chunkSpans ['h', 'i']).getLast?.map Prod.snd
          = some (['h', 'i'] : List Char).length
      ∧ ((chunkSpans ['h', 'i']).map
            (fun p => ((['h', 'i'] : List Char).drop p.1).take (p.2 - p.1))).flatten
          = ['h', 'i'] :=
  findx_c10_mirror_partition.1 ['h', 'i'] (by decide)

/-- Helper: equation of `replaceCRLF` on a CRLF pair. -/
theorem replaceCRLF_pair (r : List Char) :
    replaceCRLF ('\r' :: '\n' :: r) = '\n' :: replaceCRLF r := by
  simp [replaceCRLF]

/-- Helper: equation of `replaceCRLF` on a head that is not a carriage
return. -/
theorem replaceCRLF_cons_ne (c : Char) (r : List Char) (hc : c ≠ '\r') :
    replaceCRLF (c :: r) = c :: replaceCRLF r := by
  cases r with
  | nil => rfl
  | cons d r' =>
    simp only [replaceCRLF]
    rw [if_neg]
    intro hcd
    exact hc hcd.1

/-- Helper: chars produced by `replaceCRLF` come from the input or are LF. -/
theorem replaceCRLF_mem :
    ∀ (w : List Char) (c : Char), c ∈ replaceCRLF w → c ∈ w ∨ c = '\n' := by
  intro w
  induction w using replaceCRLF.induct with
  | case1 => intro c hc; simp [replaceCRLF] at hc
  | case2 d => intro c hc; simp [replaceCRLF] at hc; simp [hc]
  | case3 d e rest hde ih =>
    intro c hc
    obtain ⟨hd, he⟩ := hde
    subst hd; subst he
    rw [replaceCRLF_pair] at hc
    rcases List.mem_cons.mp hc with h | h
    · exact Or.inr h
    · rcases ih c h with h' | h'
      · exact Or.inl (by simp [h'])
      · exact Or.inr h'
  | case4 d e rest hde ih =>
    intro c hc
    simp only [replaceCRLF, if_neg hde] at hc
    rcases List.mem_cons.mp hc with h | h
    · exact Or.inl (by simp [h])
    · rcases ih c h with h' | h'
      · exact Or.inl (List.mem_cons_of_mem _ h')
      · exact Or.inr h'

/-- Helper: whitespace is preserved by the CR-to-LF map. -/
theorem ws_crToLf (c : Char) (h : rustIsWhitespace c = true) :
    rustIsWhitespace (crToLf c) = true := by
  by_cases hc : c = '\r'
  · subst hc; decide
  · simpa [crToLf, hc] using h

/-- Helper: normalizing an all-whitespace text keeps it all-whitespace. -/
theorem mapReplace_allWs (w : List Char) (hw : ∀ c ∈ w, rustIsWhitespace c) :
    ∀ c ∈ (replaceCRLF w).map crToLf, rustIsWhitespace c = true := by
  intro c hc
  obtain ⟨d, hd, rfl⟩ := List.mem_map.mp hc
  rcases replaceCRLF_mem w d hd with h | h
  · exact ws_crToLf d (hw d h)
  · subst h; decide

/-- Helper: trimming an all-whitespace text yields the empty text. -/
theorem trimEndWs_allWs (v : List Char) (hv : ∀ c ∈ v, rustIsWhitespace c = true) :
    trimEndWs v = [] := by
  unfold trimEndWs
  have : v.reverse.dropWhile rustIsWhitespace = [] :=
    List.dropWhile_eq_nil_iff.mpr (fun x hx => hv x (List.mem_reverse.mp hx))
  simp [this]

/-- Helper: the trimmed form of `c :: x` depends on `x` only through the
trimmed form of `x`. -/
theorem trimEndWs_cons_congr (c : Char) (x y : List Char)
    (h : trimEndWs x = trimEndWs y) : trimEndWs (c :: x) = trimEndWs (c :: y) := by
  have hxy : x.reverse.dropWhile rustIsWhitespace
      = y.reverse.dropWhile rustIsWhitespace := by
    have := congrArg List.reverse h
    simpa [trimEndWs] using this
  unfold trimEndWs
  simp only [List.reverse_cons, List.dropWhile_append, hxy]

/-- Helper: appending trailing whitespace to a text does not change its
normalized form (the replace maps may merge a trailing CR of the text with
an LF of the suffix, but the affected chars are whitespace and trimmed
away). -/
theorem normAppendWs :
    ∀ (t w : List Char), (∀ c ∈ w, rustIsWhitespace c) →
      trimEndWs ((replaceCRLF (t ++ w)).map crToLf)
        = trimEndWs ((replaceCRLF t).map crToLf)
  | [], w, hw => by
    simp only [List.nil_append, replaceCRLF]
    rw [trimEndWs_allWs _ (mapReplace_allWs w hw)]
    rfl
  | [c], w, hw => by
    cases w with
    | nil => simp
    | cons d w' =>
      have hw' : ∀ x ∈ w', rustIsWhitespace x := fun x hx =>
        hw x (List.mem_cons_of_mem _ hx)
      by_cases hcd : c = '\r' ∧ d = '\n'
      · obtain ⟨rfl, rfl⟩ := hcd
        show trimEndWs ((replaceCRLF ('\r' :: '\n' :: w')).map crToLf) = _
        rw [replaceCRLF_pair]
        simp only [List.map_cons]
        have hall : ∀ x ∈ (crToLf '\n') :: (replaceCRLF w').map crToLf,
            rustIsWhitespace x = true := by
          intro x hx
          rcases List.mem_cons.mp hx with h | h
          · subst h; decide
          · exact mapReplace_allWs w' hw' x h
        rw [trimEndWs_allWs _ hall]
        rw [trimEndWs_allWs _ (mapReplace_allWs ['\r'] (by decide))]
      · show trimEndWs ((replaceCRLF (c :: d :: w')).map crToLf) = _
        simp only [replaceCRLF, if_neg hcd, List.map_cons]
        have hx : trimEndWs ((replaceCRLF (d :: w')).map crToLf) = trimEndWs [] := by
          rw [trimEndWs_allWs _ (mapReplace_allWs (d :: w') (fun x hx => hw x hx))]
          rfl
        exact trimEndWs_cons_congr (crToLf c) _ _ hx
  | c :: d :: rest, w, hw => by
    by_cases hcd : c = '\r' ∧ d = '\n'
    · obtain ⟨rfl, rfl⟩ := hcd
      show trimEndWs ((replaceCRLF ('\r' :: '\n' :: (rest ++ w))).map crToLf) = _
      rw [replaceCRLF_pair, replaceCRLF_pair]
      simp only [List.map_cons]
      exact trimEndWs_cons_congr _ _ _ (normAppendWs rest w hw)
    · show trimEndWs ((replaceCRLF (c :: (d :: rest ++ w))).map crToLf) = _
      simp only [replaceCRLF, if_neg hcd, List.map_cons]
      exact trimEndWs_cons_congr _ _ _ (normAppendWs (d :: rest) w hw)
  termination_by t _ _ => t.length

/-- Helper: texts differing only in CRLF versus LF line endings have the
same CR-normalized form. -/
theorem eolEq_mapReplace :
    ∀ (t1 t2 : List Char), EolEq t1 t2 →
      (replaceCRLF t1).map crToLf = (replaceCRLF t2).map crToLf := by
  intro t1 t2 h
  induction h with
  | nil => rfl
  | cons c r1 r2 hc _ ih =>
    rw [replaceCRLF_cons_ne c r1 hc, replaceCRLF_cons_ne c r2 hc]
    simp only [List.map_cons, ih]
  | crlfLf r1 r2 _ ih =>
    rw [replaceCRLF_pair, replaceCRLF_cons_ne '\n' r2 (by decide)]
    simp only [List.map_cons, ih]
  | lfCrlf r1 r2 _ ih =>
    rw [replaceCRLF_pair, replaceCRLF_cons_ne '\n' r1 (by decide)]
    simp only [List.map_cons, ih]
  | crlfCrlf r1 r2 _ ih =>
    rw [replaceCRLF_pair, replaceCRLF_pair]
    simp only [List.map_cons, ih]

/-- C7: `make_chunk_id` is a pure function of the tuple (file_uid,
content_hash, page_no, start, end, normalizeText(text)) — texts with equal
normalized forms get equal ids, whatever the digest function; the id is
literally "ch:" plus the digest of file_uid bytes, content_hash bytes,
page_no as big-endian u32, start and end as big-endian usize, and the
normalized text bytes; consequently any two texts differing only in CRLF/LF
line endings or trailing whitespace get equal ids. -/
theorem findx_c7_chunk_id :
    (∀ (h : List Nat → String) (uid hash : List Char) (p s e : Nat)
        (t1 t2 : List Char), normalizeText t1 = normalizeText t2 →
        makeChunkId h uid hash p s e t1 = makeChunkId h uid hash p s e t2)
      ∧ (∀ (h : List Nat → String) (uid hash : List Char) (p s e : Nat)
          (t : List Char),
          makeChunkId h uid hash p s e t
            = "ch:" ++ h (utf8Bytes uid ++ utf8Bytes hash ++ beBytes 4 p
                ++ beBytes 8 s ++ beBytes 8 e ++ utf8Bytes (normalizeText t)))
      ∧ (∀ (h : List Nat → String) (uid hash : List Char) (p s e : Nat)
          (t1 t2 w1 w2 : List Char), EolEq t1 t2 →
          (∀ c ∈ w1, rustIsWhitespace c) → (∀ c ∈ w2, rustIsWhitespace c) →
          makeChunkId h uid hash p s e (t1 ++ w1)
            = makeChunkId h uid hash p s e (t2 ++ w2)) := by
  have hpure : ∀ (h : List Nat → String) (uid hash : List Char) (p s e : Nat)
      (t1 t2 : List Char), normalizeText t1 = normalizeText t2 →
      makeChunkId h uid hash p s e t1 = makeChunkId h uid hash p s e t2 := by
    intro h uid hash p s e t1 t2 hn
    unfold makeChunkId chunkIdPayload
    rw [hn]
  refine ⟨hpure, fun _ _ _ _ _ _ _ => rfl, ?_⟩
  intro h uid hash p s e t1 t2 w1 w2 heol hw1 hw2
  apply hpure
  have h1 : normalizeText (t1 ++ w1) = normalizeText t1 := normAppendWs t1 w1 hw1
  have h2 : normalizeText (t2 ++ w2) = normalizeText t2 := normAppendWs t2 w2 hw2
  have h3 : normalizeText t1 = normalizeText t2 := by
    unfold normalizeText
    rw [eolEq_mapReplace t1 t2 heol]
  rw [h1, h2, h3]

/-- C7 witness: the CRLF/trailing-whitespace clause at the repo's own test
vectors — "test" followed by CRLF versus "test" followed by LF, and "test"
with trailing spaces and CRLF versus bare "test". -/
theorem findx_c7_witness :
    makeChunkId (fun _ => "") ['f'] ['h'] 1 0 4
        (['t', 'e', 's', 't'] ++ ['\r', '\n'])
      = makeChunkId (fun _ => "") ['f'] ['h'] 1 0 4
        (['t', 'e', 's', 't'] ++ ['\n']) := by
  have heol : EolEq ['t', 'e', 's', 't'] ['t', 'e', 's', 't'] :=
    EolEq.cons 't' _ _ (by decide)
      (EolEq.cons 'e' _ _ (by decide)
        (EolEq.cons 's' _ _ (by decide)
          (EolEq.cons 't' _ _ (by decide) EolEq.nil)))
  exact findx_c7_chunk_id.2.2 (fun _ => "") ['f'] ['h'] 1 0 4
    ['t', 'e', 's', 't'] ['t', 'e', 's', 't'] ['\r', '\n'] ['\n']
    heol (by decide) (by decide)

/-- Helper: membership under score insertion. -/
theorem mem_insertByScore (x a : ChunkHit) (l : List ChunkHit) :
    a ∈ insertByScore x l ↔ a = x ∨ a ∈ l := by
  induction l with
  | nil => simp [insertByScore]
  | cons y ys ih =>
    simp only [insertByScore]
    split_ifs with h
    · simp [List.mem_cons]
    · simp only [List.mem_cons, ih]
      tauto

/-- Helper: sortedness (descending by score) under score insertion. -/
theorem sorted_insertByScore (x : ChunkHit) (l : List ChunkHit)
    (hl : List.Sorted (fun a b => b.score ≤ a.score) l) :
    List.Sorted (fun a b => b.score ≤ a.score) (insertByScore x l) := by
  induction l with
  | nil => simp [insertByScore]
  | cons y ys ih =>
    obtain ⟨hy, hys⟩ := List.sorted_cons.mp hl
    simp only [insertByScore]
    split_ifs with h
    · refine List.sorted_cons.mpr ⟨?_, hl⟩
      intro b hb
      rcases List.mem_cons.mp hb with rfl | hb
      · exact h
      · exact le_trans (hy b hb) h
    · refine List.sorted_cons.mpr ⟨?_, ih hys⟩
      intro b hb
      rcases (mem_insertByScore x b ys).mp hb with rfl | hb
      · exact le_of_not_le h
      · exact hy b hb

/-- Helper: membership under the descending sort. -/
theorem mem_sortByScoreDesc (a : ChunkHit) (l : List ChunkHit) :
    a ∈ sortByScoreDesc l ↔ a ∈ l := by
  induction l with
  | nil => simp [sortByScoreDesc]
  | cons y ys ih =>
    simp [sortByScoreDesc, mem_insertByScore, ih]

/-- Helper: the descending sort sorts. -/
theorem sorted_sortByScoreDesc (l : List ChunkHit) :
    List.Sorted (fun a b => b.score ≤ a.score) (sortByScoreDesc l) := by
  induction l with
  | nil => simp [sortByScoreDesc]
  | cons y ys ih => exact sorted_insertByScore y _ ih

/-- Helper: upserting keeps the key-equals-stored-id invariant. -/
theorem upsertHit_wf (m : List (String × ChunkHit × ℚ)) (item : ChunkHit) (c : ℚ)
    (hm : ∀ e ∈ m, e.1 = e.2.1.chunk_id) :
    ∀ e ∈ upsertHit m item c, e.1 = e.2.1.chunk_id := by
  induction m with
  | nil =>
    intro e he
    simp only [upsertHit, List.mem_singleton] at he
    subst he
    rfl
  | cons hd rest ih =>
    obtain ⟨key, hit, s⟩ := hd
    intro e he
    simp only [upsertHit] at he
    split_ifs at he with hk
    · rcases List.mem_cons.mp he with rfl | he
      · exact hm (key, hit, s) (List.mem_cons_self _ _)
      · exact hm e (List.mem_cons_of_mem _ he)
    · rcases List.mem_cons.mp he with rfl | he
      · exact hm (key, hit, s) (List.mem_cons_self _ _)
      · exact ih (fun e' he' => hm e' (List.mem_cons_of_mem _ he')) e he

/-- Helper: looked-up score past a non-matching head entry. -/
theorem lookupScore_cons_ne (key : String) (hit : ChunkHit) (s : ℚ)
    (rest : List (String × ChunkHit × ℚ)) (id : String) (h : ¬ key = id) :
    lookupScore ((key, hit, s) :: rest) id = lookupScore rest id := by
  simp [lookupScore, List.find?, h]

/-- Helper: looked-up score at a matching head entry. -/
theorem lookupScore_cons_eq (key : String) (hit : ChunkHit) (s : ℚ)
    (rest : List (String × ChunkHit × ℚ)) (id : String) (h : key = id) :
    lookupScore ((key, hit, s) :: rest) id = s := by
  simp [lookupScore, List.find?, h]

/-- Helper: keys after an upsert — unchanged when the id is present,
appended otherwise. -/
theorem upsertHit_fst (m : List (String × ChunkHit × ℚ)) (item : ChunkHit) (c : ℚ) :
    (upsertHit m item c).map Prod.fst
      = if item.chunk_id ∈ m.map Prod.fst then m.map Prod.fst
        else m.map Prod.fst ++ [item.chunk_id] := by
  induction m with
  | nil => simp [upsertHit]
  | cons hd rest ih =>
    obtain ⟨key, hit, s⟩ := hd
    simp only [upsertHit, List.map_cons]
    by_cases hk : key = item.chunk_id
    · rw [if_pos hk]
      simp [hk.symm]
    · rw [if_neg hk]
      rw [List.map_cons, ih]
      by_cases hc : item.chunk_id ∈ rest.map Prod.fst
      · rw [if_pos hc, if_pos (List.mem_cons_of_mem _ hc)]
      · rw [if_neg hc, if_neg ?_]
        · rfl
        · intro h
          rcases List.mem_cons.mp h with h | h
          · exact hk h.symm
          · exact hc h

/-- Helper: the looked-up score after an upsert gains exactly the
contribution when the ids match. -/
theorem lookupScore_upsertHit (m : List (String × ChunkHit × ℚ))
    (item : ChunkHit) (c : ℚ) (id : String) :
    lookupScore (upsertHit m item c) id
      = lookupScore m id + (if item.chunk_id = id then c else 0) := by
  induction m with
  | nil =>
    by_cases h : item.chunk_id = id
    · rw [show upsertHit [] item c = [(item.chunk_id, item, c)] from rfl,
        lookupScore_cons_eq _ _ _ _ _ h]
      simp [lookupScore, List.find?, h]
    · rw [show upsertHit [] item c = [(item.chunk_id, item, c)] from rfl,
        lookupScore_cons_ne _ _ _ _ _ h]
      simp [lookupScore, List.find?, h]
  | cons hd rest ih =>
    obtain ⟨key, hit, s⟩ := hd
    simp only [upsertHit]
    by_cases hk : key = item.chunk_id
    · rw [if_pos hk]
      by_cases hid : key = id
      · have hit_id : item.chunk_id = id := hk ▸ hid
        rw [lookupScore_cons_eq _ _ _ _ _ hid, lookupScore_cons_eq _ _ _ _ _ hid,
          if_pos hit_id]
      · have hit_id : ¬ item.chunk_id = id := fun h => hid (hk.trans h)
        rw [lookupScore_cons_ne _ _ _ _ _ hid, lookupScore_cons_ne _ _ _ _ _ hid,
          if_neg hit_id]
        simp
    · rw [if_neg hk]
      by_cases hid : key = id
      · have hit_id : ¬ item.chunk_id = id := fun h => hk (hid.trans h.symm)
        rw [lookupScore_cons_eq _ _ _ _ _ hid, lookupScore_cons_eq _ _ _ _ _ hid,
          if_neg hit_id]
        simp
      · rw [lookupScore_cons_ne _ _ _ _ _ hid, lookupScore_cons_ne _ _ _ _ _ hid,
          ih]

/-- Helper: nodup keys survive an upsert. -/
theorem upsertHit_nodup (m : List (String × ChunkHit × ℚ)) (item : ChunkHit)
    (c : ℚ) (hm : (m.map Prod.fst).Nodup) :
    ((upsertHit m item c).map Prod.fst).Nodup := by
  rw [upsertHit_fst]
  split_ifs with h
  · exact hm
  · simp [List.nodup_append, hm, h]

/-- Helper: the accumulation loop adds the per-list fused contributions to
every looked-up score. -/
theorem lookupScore_foldHits (l : List ChunkHit) :
    ∀ (m : List (String × ChunkHit × ℚ)) (rank : Nat) (id : String),
      lookupScore (foldHits m l rank) id
        = lookupScore m id + fusedFrom l rank id := by
  induction l with
  | nil => intro m rank id; simp [foldHits, fusedFrom]
  | cons x xs ih =>
    intro m rank id
    simp only [foldHits, fusedFrom]
    rw [ih, lookupScore_upsertHit]
    ring

/-- Helper: every key of the accumulator after a pass comes from the initial
accumulator or from the list's chunk ids. -/
theorem foldHits_fst_mem (l : List ChunkHit) :
    ∀ (m : List (String × ChunkHit × ℚ)) (rank : Nat) (k : String),
      k ∈ (foldHits m l rank).map Prod.fst →
      k ∈ m.map Prod.fst ∨ k ∈ l.map ChunkHit.chunk_id := by
  induction l with
  | nil => intro m rank k hk; exact Or.inl hk
  | cons x xs ih =>
    intro m rank k hk
    rcases ih (upsertHit m x (rrfContrib rank)) (rank + 1) k hk with h | h
    · rw [upsertHit_fst] at h
      by_cases hc : x.chunk_id ∈ m.map Prod.fst
      · rw [if_pos hc] at h
        exact Or.inl h
      · rw [if_neg hc] at h
        rcases List.mem_append.mp h with h | h
        · exact Or.inl h
        · simp only [List.mem_singleton] at h
          subst h
          exact Or.inr (by simp)
    · exact Or.inr (List.mem_cons_of_mem _ (by simpa using h))

/-- Helper: the key invariant survives the accumulation loop. -/
theorem foldHits_wf (l : List ChunkHit) :
    ∀ (m : List (String × ChunkHit × ℚ)) (rank : Nat),
      (∀ e ∈ m, e.1 = e.2.1.chunk_id) →
      ∀ e ∈ foldHits m l rank, e.1 = e.2.1.chunk_id := by
  induction l with
  | nil => intro m rank hm; exact hm
  | cons x xs ih =>
    intro m rank hm
    exact ih _ (rank + 1) (upsertHit_wf m x (rrfContrib rank) hm)

/-- Helper: nodup keys survive the accumulation loop. -/
theorem foldHits_nodup (l : List ChunkHit) :
    ∀ (m : List (String × ChunkHit × ℚ)) (rank : Nat),
      (m.map Prod.fst).Nodup → ((foldHits m l rank).map Prod.fst).Nodup := by
  induction l with
  | nil => intro m rank hm; exact hm
  | cons x xs ih =>
    intro m rank hm
    exact ih _ (rank + 1) (upsertHit_nodup m x (rrfContrib rank) hm)

/-- Helper: with nodup keys, an entry's stored score is its looked-up
score. -/
theorem lookupScore_self (m : List (String × ChunkHit × ℚ))
    (hm : (m.map Prod.fst).Nodup) :
    ∀ e ∈ m, lookupScore m e.1 = e.2.2 := by
  induction m with
  | nil => intro e he; simp at he
  | cons hd rest ih =>
    obtain ⟨key, hit, s⟩ := hd
    intro e he
    rcases List.mem_cons.mp he with rfl | he
    · exact lookupScore_cons_eq _ _ _ _ _ rfl
    · have hkey : ¬ key = e.1 := by
        intro h
        have : e.1 ∈ rest.map Prod.fst := List.mem_map_of_mem Prod.fst he
        rw [List.map_cons] at hm
        exact (List.nodup_cons.mp hm).1 (h ▸ this)
      rw [lookupScore_cons_ne _ _ _ _ _ hkey]
      exact ih (List.nodup_cons.mp (by simpa using hm)).2 e he

/-- C9: the Reciprocal Rank Fusion output contains only chunk ids appearing
in at least one input list, assigns each hit the fused score — the sum over
both lists of `1 / (60 + rank + 1)` at the 0-based ranks holding its chunk
id — is sorted by descending fused score, and has length at most K. -/
theorem findx_c9_rrf_fusion :
    ∀ (bm25 ann : List ChunkHit) (topK : Nat),
      (∀ hit, hit ∈ rrf bm25 ann topK →
          hit.chunk_id ∈ bm25.map ChunkHit.chunk_id
            ∨ hit.chunk_id ∈ ann.map ChunkHit.chunk_id)
        ∧ (∀ hit, hit ∈ rrf bm25 ann topK →
            hit.score = fusedScore bm25 hit.chunk_id + fusedScore ann hit.chunk_id)
        ∧ List.Sorted (fun a b => b.score ≤ a.score) (rrf bm25 ann topK)
        ∧ (rrf bm25 ann topK).length ≤ topK := by
  intro bm25 ann topK
  have hwf : ∀ e ∈ foldHits (foldHits [] bm25 0) ann 0, e.1 = e.2.1.chunk_id :=
    foldHits_wf ann _ 0 (foldHits_wf bm25 [] 0 (by intro e he; simp at he))
  have hnd : ((foldHits (foldHits [] bm25 0) ann 0).map Prod.fst).Nodup :=
    foldHits_nodup ann _ 0 (foldHits_nodup bm25 [] 0 (by simp))
  have hmem_entry : ∀ hit, hit ∈ rrf bm25 ann topK →
      ∃ e, e ∈ foldHits (foldHits [] bm25 0) ann 0
        ∧ hit = { e.2.1 with score := e.2.2 } := by
    intro hit h
    simp only [rrf] at h
    have h1 := List.mem_of_mem_take h
    have h2 := (mem_sortByScoreDesc _ _).mp h1
    obtain ⟨e, he, heq⟩ := List.mem_map.mp h2
    exact ⟨e, he, heq.symm⟩
  refine ⟨?_, ?_, ?_, ?_⟩
  · intro hit h
    obtain ⟨e, he, rfl⟩ := hmem_entry hit h
    have hid : ({ e.2.1 with score := e.2.2 } : ChunkHit).chunk_id = e.1 :=
      (hwf e he).symm
    have hkey : e.1 ∈ (foldHits (foldHits [] bm25 0) ann 0).map Prod.fst :=
      List.mem_map_of_mem Prod.fst he
    rcases foldHits_fst_mem ann _ 0 e.1 hkey with h' | h'
    · rcases foldHits_fst_mem bm25 [] 0 e.1 h' with h'' | h''
      · simp at h''
      · exact Or.inl (hid ▸ h'')
    · exact Or.inr (hid ▸ h')
  · intro hit h
    obtain ⟨e, he, rfl⟩ := hmem_entry hit h
    have hid : ({ e.2.1 with score := e.2.2 } : ChunkHit).chunk_id = e.1 :=
      (hwf e he).symm
    show e.2.2 = _
    rw [hid]
    have h1 : lookupScore (foldHits (foldHits [] bm25 0) ann 0) e.1 = e.2.2 :=
      lookupScore_self _ hnd e he
    rw [← h1, lookupScore_foldHits, lookupScore_foldHits]
    have h0 : lookupScore [] e.1 = 0 := rfl
    rw [h0, zero_add]
    rfl
  · simp only [rrf]
    exact List.Pairwise.sublist (List.take_sublist _ _) (sorted_sortByScoreDesc _)
  · simp only [rrf]
    exact List.length_take_le _ _

/-- C9 witness: the fused-score clause applied to a singleton keyword list
and an empty semantic list. -/
theorem findx_c9_witness :
    ({ path := "p", score := rrfContrib 0, chunk_id := "c", start_byte := 0,
        end_byte := 1 } : ChunkHit).score
      = fusedScore
          [{ path := "p", score := 1, chunk_id := "c", start_byte := 0,
              end_byte := 1 }] "c"
        + fusedScore [] "c" :=
  (findx_c9_rrf_fusion
      [{ path := "p", score := 1, chunk_id := "c", start_byte := 0,
          end_byte := 1 }] [] 1).2.1
    { path := "p", score := rrfContrib 0, chunk_id := "c", start_byte := 0,
      end_byte := 1 }
    (List.mem_singleton_self _)

/-- Helper: with no injected failure the chunk loop succeeds. -/
theorem runChunkSteps_none_ok :
    ∀ (cs : List (String × Nat)) (step : Nat) (st : MirrorSt),
      (runChunkSteps cs step none st).2 = true := by
  intro cs
  induction cs with
  | nil => intro step st; rfl
  | cons c rest ih =>
    intro step st
    obtain ⟨id, ord⟩ := c
    simp only [runChunkSteps]
    rw [if_neg (by simp)]
    exact ih (step + 1) _

/-- Helper: with no injected failure the chunk loop appends exactly the
given rows. -/
theorem runChunkSteps_none_rows :
    ∀ (cs : List (String × Nat)) (step : Nat) (st : MirrorSt),
      (runChunkSteps cs step none st).1.chunkRows = st.chunkRows ++ cs := by
  intro cs
  induction cs with
  | nil => intro step st; simp [runChunkSteps]
  | cons c rest ih =>
    intro step st
    obtain ⟨id, ord⟩ := c
    simp only [runChunkSteps]
    rw [if_neg (by simp)]
    rw [ih]
    simp

/-- Helper: the chunk loop does not touch meta.json, its tmp, or
chunks.jsonl. -/
theorem runChunkSteps_none_fs :
    ∀ (cs : List (String × Nat)) (step : Nat) (st : MirrorSt),
      (runChunkSteps cs step none st).1.fsF.meta = st.fsF.meta
        ∧ (runChunkSteps cs step none st).1.fsF.metaTmp = st.fsF.metaTmp
        ∧ (runChunkSteps cs step none st).1.fsF.chunks = st.fsF.chunks := by
  intro cs
  induction cs with
  | nil => intro step st; exact ⟨rfl, rfl, rfl⟩
  | cons c rest ih =>
    intro step st
    obtain ⟨id, ord⟩ := c
    simp only [runChunkSteps]
    rw [if_neg (by simp)]
    exact ih (step + 1) _

/-- Helper: a failure-free delivery succeeds from any prior state and leaves
the complete mirror: meta.json and chunks.jsonl present, no tmps, and the
chunk rows computed deterministically from the event data. -/
theorem handleExtraction_none (h : List Nat → String) (uid hash : List Char)
    (pages : List PageBlock) (st : MirrorSt) :
    (handleExtraction h uid hash pages none st).2 = true
      ∧ (handleExtraction h uid hash pages none st).1.chunkRows
          = mirrorChunkRows h uid hash pages 0
      ∧ (handleExtraction h uid hash pages none st).1.fsF.meta = true
      ∧ (handleExtraction h uid hash pages none st).1.fsF.chunks = true
      ∧ (handleExtraction h uid hash pages none st).1.fsF.metaTmp = false
      ∧ (handleExtraction h uid hash pages none st).1.fsF.chunksTmp = false := by
  have hok := runChunkSteps_none_ok (mirrorChunkRows h uid hash pages 0) 2
  have hrows := runChunkSteps_none_rows (mirrorChunkRows h uid hash pages 0) 2
  have hfs := runChunkSteps_none_fs (mirrorChunkRows h uid hash pages 0) 2
  simp only [handleExtraction]
  rw [if_neg (by simp), if_neg (by simp), if_neg (by simp [hok]),
    if_neg (by simp)]
  refine ⟨rfl, ?_, ?_, rfl, ?_, rfl⟩
  · rw [hrows]
    rfl
  · exact (hfs _).1
  · exact (hfs _).2.1

/-- Helper: a failing run ends in the recovery block. -/
theorem handleExtraction_fail_shape (h : List Nat → String)
    (uid hash : List Char) (pages : List PageBlock) (failAt : Option Nat)
    (st : MirrorSt)
    (hfail : (handleExtraction h uid hash pages failAt st).2 = false) :
    ∃ s, handleExtraction h uid hash pages failAt st = mirrorCleanup s := by
  simp only [handleExtraction] at hfail ⊢
  split_ifs at hfail ⊢ with h0 h1 h2 h3
  all_goals exact ⟨_, rfl⟩

/-- Helper: what the recovery block guarantees. -/
theorem mirrorCleanup_spec (s : MirrorSt) :
    (mirrorCleanup s).1.fsF
        = { meta := false, chunks := false, metaTmp := false, chunksTmp := false }
      ∧ (mirrorCleanup s).1.docRow = none
      ∧ (mirrorCleanup s).1.chunkRows = []
      ∧ (mirrorCleanup s).1.published.getLast? = some MirrorEv.docDeleted
      ∧ (mirrorCleanup s).2 = false := by
  refine ⟨rfl, rfl, rfl, ?_, rfl⟩
  simp [mirrorCleanup]

/-- C6: if `handle_extraction` fails at any injected step after the
directory is resolved, the returned state has none of meta.json,
chunks.jsonl or the two tmp files on disk, no mirror_docs row and no
mirror_chunks rows for the file_uid, the last published mirror event is the
doc-deleted event, and the error is returned; re-delivering the same event
with no failure then succeeds and produces the complete mirror whose chunk
rows (ids and orders) are the deterministic function of the event data —
the same rows any clean delivery produces. -/
theorem findx_c6_failure_recovery :
    ∀ (h : List Nat → String) (uid hash : List Char) (pages : List PageBlock)
      (k : Nat) (st : MirrorSt),
      (handleExtraction h uid hash pages (some k) st).2 = false →
        ((handleExtraction h uid hash pages (some k) st).1.fsF
            = { meta := false, chunks := false, metaTmp := false, chunksTmp := false }
          ∧ (handleExtraction h uid hash pages (some k) st).1.docRow = none
          ∧ (handleExtraction h uid hash pages (some k) st).1.chunkRows = []
          ∧ (handleExtraction h uid hash pages (some k) st).1.published.getLast?
              = some MirrorEv.docDeleted)
        ∧ ((handleExtraction h uid hash pages none
              (handleExtraction h uid hash pages (some k) st).1).2 = true
          ∧ (handleExtraction h uid hash pages none
              (handleExtraction h uid hash pages (some k) st).1).1.chunkRows
              = mirrorChunkRows h uid hash pages 0
          ∧ (handleExtraction h uid hash pages none
              (handleExtraction h uid hash pages (some k) st).1).1.fsF.meta = true
          ∧ (handleExtraction h uid hash pages none
              (handleExtraction h uid hash pages (some k) st).1).1.fsF.chunks = true
          ∧ (handleExtraction h uid hash pages none
              (handleExtraction h uid hash pages (some k) st).1).1.fsF.metaTmp = false
          ∧ (handleExtraction h uid hash pages none
              (handleExtraction h uid hash pages (some k) st).1).1.fsF.chunksTmp
              = false) := by
  intro h uid hash pages k st hfail
  obtain ⟨s, hs⟩ := handleExtraction_fail_shape h uid hash pages (some k) st hfail
  obtain ⟨c1, c2, c3, c4, _⟩ := mirrorCleanup_spec s
  obtain ⟨r1, r2, r3, r4, r5, r6⟩ := handleExtraction_none h uid hash pages
    (handleExtraction h uid hash pages (some k) st).1
  exact ⟨⟨by rw [hs]; exact c1, by rw [hs]; exact c2, by rw [hs]; exact c3,
    by rw [hs]; exact c4⟩, r1, r2, r3, r4, r5, r6⟩

/-- C6 witness: a failure injected at the meta.json step on a one-page
document, from the empty state. -/
theorem findx_c6_witness :
    (handleExtraction (fun _ => "") ['f'] ['h']
        [{ page_no := 1, text := ['h', 'i'], start := 0, end_ := 2 }] (some 0)
        { fsF := { meta := false, chunks := false, metaTmp := false,
                   chunksTmp := false },
          docRow := none, chunkRows := [], published := [] }).2 = false
      ∧ (handleExtraction (fun _ => "") ['f'] ['h']
          [{ page_no := 1, text := ['h', 'i'], start := 0, end_ := 2 }] (some 0)
          { fsF := { meta := false, chunks := false, metaTmp := false,
                     chunksTmp := false },
            docRow := none, chunkRows := [], published := [] }).1.chunkRows = [] := by
  have hmain := findx_c6_failure_recovery (fun _ => "") ['f'] ['h']
    [{ page_no := 1, text := ['h', 'i'], start := 0, end_ := 2 }] 0
    { fsF := { meta := false, chunks := false, metaTmp := false,
               chunksTmp := false },
      docRow := none, chunkRows := [], published := [] } (by decide)
  exact ⟨by decide, hmain.1.2.2.1⟩
